import Mathlib

/-!
Verification of the PaxD extension trigger-dispatch engine specification and of the
documentation site's `script.js`.

The engine itself (dispatcher, sandbox, lifecycle manager) ships outside this
repository; the repository documents it.  Definitions for it are therefore modelled
from the specification text, as their doc comments state.  The webcontrol form and
copy-button logic are translated directly from `src/script.js`.
-/

namespace PaxD

/-- Mirrors `action.charAt(0).toUpperCase() + action.slice(1)` from `script.js`. -/
def capitalizeFirst (s : String) : String :=
  match s.data with
  | [] => s
  | c :: cs => String.mk (Char.toUpper c :: cs)

/-- The icon markup prepended to the webcontrol button label in `script.js`. -/
def iconSpan : String := "<span class=\"btn-icon\">🚀</span>"

/-- Mirrors JavaScript `String.prototype.trim`: strip whitespace from both ends. -/
def jsTrim (s : String) : String :=
  String.mk ((s.data.dropWhile Char.isWhitespace).reverse.dropWhile Char.isWhitespace).reverse

/-- View state of the webcontrol button: the `disabled` flag and the `innerHTML`. -/
structure WebcontrolView where
  disabled : Bool
  innerHTML : String
deriving DecidableEq

/-- Mirrors `updateWebcontrolButton` in `script.js` (lines 17-29): trim the package
input, enable the button and set its label when both fields are non-empty, otherwise
disable it and restore the placeholder label. -/
def updateWebcontrolButton (action packageValue : String) : WebcontrolView :=
  let packageName := jsTrim packageValue
  if !action.isEmpty && !packageName.isEmpty then
    ⟨false, iconSpan ++ capitalizeFirst action ++ " " ++ packageName⟩
  else
    ⟨true, iconSpan ++ "Execute Command"⟩

/-- Mirrors the `webcontrolBtn` click listener in `script.js` (lines 35-43): the URL
the page navigates to, or `none` when the guard rejects the input. -/
def webcontrolClick (action packageValue : String) : Option String :=
  let packageName := jsTrim packageValue
  if !action.isEmpty && !packageName.isEmpty then
    some ("paxd://" ++ action ++ "/" ++ packageName)
  else
    none

/-- A wrapper element, abstracted as the list of its children's class names. -/
abbrev Wrapper := List String

/-- The `wrapper.querySelector('.copy-button')` guard of `addCopyButtons`. -/
def hasCopyButton (w : Wrapper) : Bool := w.contains "copy-button"

/-- The document: each code block's wrapper element, indexed by wrapper identity;
distinct blocks may share a wrapper, which sharing an index captures. -/
abbrev Doc := Nat → Wrapper

/-- One iteration of the `codeBlocks.forEach` loop in `addCopyButtons` (`script.js`
lines 78-120): block `b`'s wrapper gains a copy button unless it already has one. -/
def addCopyButtonStep (doc : Doc) (b : Nat) : Doc :=
  if hasCopyButton (doc b) then doc
  else Function.update doc b (doc b ++ ["copy-button"])

/-- Mirrors `addCopyButtons` in `script.js`: visit every code block in order. -/
def addCopyButtons (blocks : List Nat) (doc : Doc) : Doc :=
  blocks.foldl addCopyButtonStep doc

/-- Modelled from the spec: extension lifecycle state (§3); the engine's source is not
part of this repository. -/
inductive ExtState
  | installed
  | disabled
  | failed
deriving DecidableEq

/-- Modelled from the spec: the validated manifest metadata block (§3, §6). -/
structure Manifest where
  name : String
  version : String
  description : String
  author : String
  triggers : List String
  source_url : Option String
deriving DecidableEq

/-- Modelled from the spec: an installed extension: its manifest and state (§3). -/
structure Extension where
  manifest : Manifest
  state : ExtState
deriving DecidableEq

/-- An extension's identity is its manifest name. -/
def Extension.name (e : Extension) : String := e.manifest.name

/-- Modelled from the spec: the Lifecycle Manager's state: the Extension set in load
order, and the Registration Table as (trigger, extension-name) pairs, one pair per
registration, per-trigger order given by list order (§3). -/
structure Store where
  exts : List Extension
  table : List (String × String)
deriving DecidableEq

def Store.empty : Store := ⟨[], []⟩

/-- Modelled from the spec (§4.3): `subscribersOf(triggerName)`: the ordered subscriber
names for a trigger; an unknown trigger yields the empty sequence, not an error. -/
def subscribersOfTable (tb : List (String × String)) (t : String) : List String :=
  (tb.filter (fun p => p.1 == t)).map (fun p => p.2)

def Store.subscribersOf (st : Store) (t : String) : List String :=
  subscribersOfTable st.table t

/-- Modelled from the spec (§4.3): `register(extension, triggerNames)` appends at the
tail of each trigger's list. -/
def registerAll (tb : List (String × String)) (n : String) (trs : List String) :
    List (String × String) :=
  tb ++ trs.map (fun t => (t, n))

/-- Modelled from the spec (§4.3): `deregisterAll(extensionName)` removes every entry
of the extension. -/
def deregisterAll (tb : List (String × String)) (n : String) : List (String × String) :=
  tb.filter (fun p => !(p.2 == n))

/-- Lower-cased character sequence of a name, for the spec's case-insensitive
name-collision check (§3). -/
def lowerName (s : String) : List Char := s.data.map Char.toLower

inductive InstallError
  | nameConflict
  | corruptArchive
deriving DecidableEq

inductive UpdateError
  | fetchFailed
  | incompatibleManifest
deriving DecidableEq

/-- Modelled from the spec (§4.2 `install`): a case-insensitive name collision without
`overwrite` fails with `InstallError(NameConflict)`; otherwise any colliding extension
is replaced, the new extension joins the set in state Installed and is appended at the
tail of each subscribed trigger's list. -/
def Store.install (st : Store) (m : Manifest) (overwrite : Bool) :
    Except InstallError Store :=
  if st.exts.any (fun e => lowerName e.name == lowerName m.name) && !overwrite then
    .error .nameConflict
  else
    .ok ⟨st.exts.filter (fun e => !(lowerName e.name == lowerName m.name)) ++
           [⟨m, .installed⟩],
         registerAll (st.table.filter (fun p => !(lowerName p.2 == lowerName m.name)))
           m.name m.triggers⟩

/-- Modelled from the spec (§4.2 `uninstall`): all Registration Table entries are
removed first, then the directory is deleted; if deletion fails the extension is left
recorded in state `Failed`, unreachable via triggers. -/
def Store.uninstall (st : Store) (n : String) (deleteOk : Bool) : Store :=
  let tb := deregisterAll st.table n
  if deleteOk then
    ⟨st.exts.filter (fun e => !(e.name == n)), tb⟩
  else
    ⟨st.exts.map (fun e => if e.name == n then ⟨e.manifest, .failed⟩ else e), tb⟩

/-- Modelled from the spec (§4.2 `setEnabled`): disabling removes the extension's
table entries without touching its record (state Disabled); enabling reinserts them at
the tail of each declared trigger's list (state Installed). -/
def Store.setEnabled (st : Store) (n : String) (enabled : Bool) : Store :=
  match st.exts.find? (fun e => e.name == n) with
  | none => st
  | some e =>
    if enabled then
      if e.state == .disabled then
        ⟨st.exts.map (fun x => if x.name == n then ⟨x.manifest, .installed⟩ else x),
         registerAll st.table n e.manifest.triggers⟩
      else st
    else
      if e.state == .installed then
        ⟨st.exts.map (fun x => if x.name == n then ⟨x.manifest, .disabled⟩ else x),
         deregisterAll st.table n⟩
      else st

/-- Modelled from the spec (§4.2 `update`): identity is stable, the trigger set is
diffed: removed triggers are deregistered, new ones appended at the tail of their
lists; failure leaves the previous version active. -/
def Store.update (st : Store) (n : String) (m : Manifest) : Except UpdateError Store :=
  match st.exts.find? (fun e => e.name == n) with
  | none => .error .incompatibleManifest
  | some e =>
    if !(m.name == n) || !(e.state == .installed) then .error .incompatibleManifest
    else
      let removed := e.manifest.triggers.filter (fun t => !(m.triggers.contains t))
      let added := m.triggers.filter (fun t => !(e.manifest.triggers.contains t))
      .ok ⟨st.exts.map (fun x => if x.name == n then ⟨m, x.state⟩ else x),
           registerAll (st.table.filter (fun p => !(p.2 == n && removed.contains p.1)))
             n added⟩

/-- Modelled from the spec (§6 management surface): `list()` reports name, version,
state and triggers of every recorded extension. -/
def Store.list (st : Store) : List (String × String × ExtState × List String) :=
  st.exts.map (fun e => (e.name, e.manifest.version, e.state, e.manifest.triggers))

/-- Modelled from the spec (§3 Lifecycle): the lifecycle operations serialized through
the Lifecycle Manager. -/
inductive LifecycleOp
  | install (m : Manifest) (overwrite : Bool)
  | update (n : String) (m : Manifest)
  | uninstall (n : String) (deleteOk : Bool)
  | setEnabled (n : String) (enabled : Bool)

/-- Apply one lifecycle operation; a failing operation leaves prior state intact (§7). -/
def Store.apply (st : Store) (op : LifecycleOp) : Store :=
  match op with
  | .install m ow =>
    match st.install m ow with
    | .ok s => s
    | .error _ => st
  | .update n m =>
    match st.update n m with
    | .ok s => s
    | .error _ => st
  | .uninstall n deleteOk => st.uninstall n deleteOk
  | .setEnabled n b => st.setEnabled n b

def Store.run (st : Store) (ops : List LifecycleOp) : Store :=
  ops.foldl Store.apply st

/-- Modelled from the spec (§4.5, §9): a handler invocation's behaviour: the result it
would produce and the time it runs for. -/
inductive HandlerResult
  | ok
  | throws (msg : String)
deriving DecidableEq

structure HandlerRun where
  result : HandlerResult
  duration : Nat
deriving DecidableEq

/-- Modelled from the spec (§4.5, §9): the tagged outcome of one sandboxed invocation. -/
inductive Outcome
  | success
  | handlerError (msg : String)
  | timeoutError
deriving DecidableEq

abbrev Context := List (String × String)

/-- Modelled from the spec (§4.4): the aggregate per-extension outcomes of one `fire`. -/
abbrev DispatchResult := List (String × Outcome)

/-- Modelled from the spec: the dispatch system: a registration-table snapshot, each
extension's handler behaviour, and the sandbox time budget. -/
structure DispatchSystem where
  table : List (String × String)
  handlers : String → String → Context → HandlerRun
  timeBudget : Nat

/-- Modelled from the spec (§4.5 `Sandbox.invoke`): deadline check, then fault
capture: an exception becomes `HandlerError`, never re-raised. -/
def Sandbox.invoke (r : HandlerRun) (timeBudget : Nat) : Outcome :=
  if timeBudget < r.duration then .timeoutError
  else
    match r.result with
    | .ok => .success
    | .throws msg => .handlerError msg

/-- Modelled from the spec (§4.4 `fire`): snapshot the subscribers, invoke each in
order via the sandbox, record every outcome; the function is total, so a handler
failure never raises to the host. -/
def fire (sys : DispatchSystem) (trigger : String) (ctx : Context) : DispatchResult :=
  (subscribersOfTable sys.table trigger).map
    (fun n => (n, Sandbox.invoke (sys.handlers n trigger ctx) sys.timeBudget))

/-- Modelled from the spec (§4.3): the Registry rebuilt from installed manifests in
load order at startup. -/
def rebuildTable (ms : List Manifest) : List (String × String) :=
  ms.foldl (fun tb m => registerAll tb m.name m.triggers) []

/-- Registration-table invariant (§3): extension names are unique, every table entry
references an Installed extension subscribed to that trigger, and every Installed
extension is registered at each of its declared triggers. -/
def Inv (st : Store) : Prop :=
  (st.exts.map Extension.name).Nodup ∧
  (∀ p ∈ st.table,
     ∃ e ∈ st.exts, e.name = p.2 ∧ e.state = .installed ∧ p.1 ∈ e.manifest.triggers) ∧
  (∀ e ∈ st.exts, e.state = .installed →
     ∀ t ∈ e.manifest.triggers, (t, e.name) ∈ st.table)

/-! Helper lemmas. -/

theorem mem_subscribersOfTable {tb : List (String × String)} {t n : String} :
    n ∈ subscribersOfTable tb t ↔ (t, n) ∈ tb := by
  simp only [subscribersOfTable, List.mem_map, List.mem_filter, beq_iff_eq]
  constructor
  · rintro ⟨⟨a, b⟩, ⟨hmem, ha⟩, hb⟩
    cases ha
    cases hb
    exact hmem
  · intro hmem
    exact ⟨(t, n), ⟨hmem, rfl⟩, rfl⟩

theorem fire_map_fst (sys : DispatchSystem) (T : String) (ctx : Context) :
    (fire sys T ctx).map Prod.fst = subscribersOfTable sys.table T := by
  simp [fire, List.map_map, Function.comp_def]

/-- C1: if extension `E`'s handler throws for trigger `T` while staying inside the
time budget, `fire` still invokes every subscriber before and after `E` with its own
sandboxed outcome, records `E`'s outcome as `HandlerError`, and — being total —
returns normally instead of raising to the host. -/
theorem c1_fire_continue_on_error (sys : DispatchSystem) (T : String) (ctx : Context)
    (E msg : String) (pre post : List String)
    (hsubs : subscribersOfTable sys.table T = pre ++ E :: post)
    (hthrow : (sys.handlers E T ctx).result = .throws msg)
    (htime : (sys.handlers E T ctx).duration ≤ sys.timeBudget) :
    fire sys T ctx
      = pre.map (fun n => (n, Sandbox.invoke (sys.handlers n T ctx) sys.timeBudget))
        ++ (E, Outcome.handlerError msg)
          :: post.map (fun n => (n, Sandbox.invoke (sys.handlers n T ctx) sys.timeBudget))
      ∧ (fire sys T ctx).map Prod.fst = pre ++ E :: post := by
  have hE : Sandbox.invoke (sys.handlers E T ctx) sys.timeBudget
      = Outcome.handlerError msg := by
    unfold Sandbox.invoke
    rw [if_neg (by omega), hthrow]
  refine ⟨?_, by rw [fire_map_fst, hsubs]⟩
  rw [fire, hsubs, List.map_append, List.map_cons, hE]

/-- C3: a trigger name with no table entry — in particular any unknown trigger name —
has an empty subscriber sequence (lookup does not error), and `fire` returns the
empty outcome set without raising. -/
theorem c3_fire_no_subscribers (sys : DispatchSystem) (T : String) (ctx : Context)
    (h : ∀ p ∈ sys.table, p.1 ≠ T) :
    subscribersOfTable sys.table T = [] ∧ fire sys T ctx = [] := by
  have hs : subscribersOfTable sys.table T = [] := by
    unfold subscribersOfTable
    have : sys.table.filter (fun p => p.1 == T) = [] := by
      rw [List.filter_eq_nil_iff]
      intro p hp
      simp [h p hp]
    rw [this, List.map_nil]
  exact ⟨hs, by rw [fire, hs, List.map_nil]⟩

/-- C4: if `E`'s handler does not return within the time budget, its outcome is
recorded as `TimeoutError`, and every subscriber after `E` is still invoked with its
own sandboxed outcome. -/
theorem c4_fire_timeout (sys : DispatchSystem) (T : String) (ctx : Context)
    (E : String) (pre post : List String)
    (hsubs : subscribersOfTable sys.table T = pre ++ E :: post)
    (htime : sys.timeBudget < (sys.handlers E T ctx).duration) :
    fire sys T ctx
      = pre.map (fun n => (n, Sandbox.invoke (sys.handlers n T ctx) sys.timeBudget))
        ++ (E, Outcome.timeoutError)
          :: post.map (fun n => (n, Sandbox.invoke (sys.handlers n T ctx) sys.timeBudget))
      ∧ (fire sys T ctx).map Prod.fst = pre ++ E :: post := by
  have hE : Sandbox.invoke (sys.handlers E T ctx) sys.timeBudget
      = Outcome.timeoutError := by
    unfold Sandbox.invoke
    rw [if_pos htime]
  refine ⟨?_, by rw [fire_map_fst, hsubs]⟩
  rw [fire, hsubs, List.map_append, List.map_cons, hE]

/-- A concrete dispatch system: four subscribers of trigger `t`; `bad` throws and
`slow` overruns the 5-unit time budget. -/
def sysW : DispatchSystem :=
  ⟨[("t", "alpha"), ("t", "bad"), ("t", "slow"), ("t", "omega")],
   fun n _ _ =>
     if n == "bad" then ⟨.throws "boom", 1⟩
     else if n == "slow" then ⟨.ok, 99⟩
     else ⟨.ok, 1⟩,
   5⟩

theorem c1_witness :
    fire sysW "t" []
      = (["alpha"].map
          (fun n => (n, Sandbox.invoke (sysW.handlers n "t" []) sysW.timeBudget)))
        ++ ("bad", Outcome.handlerError "boom")
          :: (["slow", "omega"].map
              (fun n => (n, Sandbox.invoke (sysW.handlers n "t" []) sysW.timeBudget)))
      ∧ (fire sysW "t" []).map Prod.fst = ["alpha"] ++ "bad" :: ["slow", "omega"] :=
  c1_fire_continue_on_error sysW "t" [] "bad" "boom" ["alpha"] ["slow", "omega"]
    (by decide) (by decide) (by decide)

theorem c3_witness :
    subscribersOfTable sysW.table "unknown_trigger" = []
      ∧ fire sysW "unknown_trigger" [] = [] :=
  c3_fire_no_subscribers sysW "unknown_trigger" [] (by decide)

theorem c4_witness :
    fire sysW "t" []
      = (["alpha", "bad"].map
          (fun n => (n, Sandbox.invoke (sysW.handlers n "t" []) sysW.timeBudget)))
        ++ ("slow", Outcome.timeoutError)
          :: (["omega"].map
              (fun n => (n, Sandbox.invoke (sysW.handlers n "t" []) sysW.timeBudget)))
      ∧ (fire sysW "t" []).map Prod.fst = ["alpha", "bad"] ++ "slow" :: ["omega"] :=
  c4_fire_timeout sysW "t" [] "slow" ["alpha", "bad"] ["omega"] (by decide) (by decide)

theorem subscribersOf_pairs (n T : String) (trs : List String) (h : trs.Nodup) :
    subscribersOfTable (trs.map (fun t => (t, n))) T
      = if trs.contains T then [n] else [] := by
  induction trs with
  | nil => simp [subscribersOfTable]
  | cons a l ih =>
    rcases List.nodup_cons.mp h with ⟨ha, hl⟩
    by_cases haT : a = T
    · subst haT
      simp only [List.map_cons, subscribersOfTable, List.filter_cons] at ih ⊢
      simp [ih hl, ha]
    · simp only [List.map_cons, subscribersOfTable, List.filter_cons] at ih ⊢
      simp [ih hl, haT, Ne.symm haT]

theorem subscribersOf_registerAll (tb : List (String × String)) (n T : String)
    (trs : List String) (h : trs.Nodup) :
    subscribersOfTable (registerAll tb n trs) T
      = subscribersOfTable tb T ++ (if trs.contains T then [n] else []) := by
  unfold registerAll subscribersOfTable
  rw [List.filter_append, List.map_append]
  congr 1
  exact subscribersOf_pairs n T trs h

theorem subscribersOf_rebuild (T : String) (ms : List Manifest)
    (h : ∀ m ∈ ms, m.triggers.Nodup) :
    ∀ tb : List (String × String),
      subscribersOfTable (ms.foldl (fun tb m => registerAll tb m.name m.triggers) tb) T
        = subscribersOfTable tb T
          ++ (ms.filter (fun m => m.triggers.contains T)).map Manifest.name := by
  induction ms with
  | nil => intro tb; simp
  | cons m ms ih =>
    intro tb
    rw [List.foldl_cons,
      ih (fun x hx => h x (List.mem_cons_of_mem m hx)) (registerAll tb m.name m.triggers),
      subscribersOf_registerAll tb m.name T m.triggers (h m (List.mem_cons_self m ms)),
      List.filter_cons]
    by_cases hc : T ∈ m.triggers <;> simp [hc, List.append_assoc]

/-- C2: with the Registry rebuilt from manifests in install/load order, `fire` invokes
exactly the subscribed extensions, once each, in that order; swapping two extensions
in the install order swaps their invocation order identically, all other relative
positions unchanged. -/
theorem c2_fire_registration_order (h : String → String → Context → HandlerRun)
    (budget : Nat) (T : String) (ctx : Context) :
    (∀ ms : List Manifest, (∀ m ∈ ms, m.triggers.Nodup) →
       (fire ⟨rebuildTable ms, h, budget⟩ T ctx).map Prod.fst
         = (ms.filter (fun m => m.triggers.contains T)).map Manifest.name) ∧
    (∀ (l1 l2 l3 : List Manifest) (a b : Manifest),
       (∀ m ∈ l1 ++ a :: l2 ++ b :: l3, m.triggers.Nodup) →
       (∀ m ∈ l1 ++ b :: l2 ++ a :: l3, m.triggers.Nodup) →
       (fire ⟨rebuildTable (l1 ++ a :: l2 ++ b :: l3), h, budget⟩ T ctx).map Prod.fst
         = (l1.filter (fun m => m.triggers.contains T)).map Manifest.name
           ++ (if a.triggers.contains T then [a.name] else [])
           ++ (l2.filter (fun m => m.triggers.contains T)).map Manifest.name
           ++ (if b.triggers.contains T then [b.name] else [])
           ++ (l3.filter (fun m => m.triggers.contains T)).map Manifest.name
       ∧ (fire ⟨rebuildTable (l1 ++ b :: l2 ++ a :: l3), h, budget⟩ T ctx).map Prod.fst
         = (l1.filter (fun m => m.triggers.contains T)).map Manifest.name
           ++ (if b.triggers.contains T then [b.name] else [])
           ++ (l2.filter (fun m => m.triggers.contains T)).map Manifest.name
           ++ (if a.triggers.contains T then [a.name] else [])
           ++ (l3.filter (fun m => m.triggers.contains T)).map Manifest.name) := by
  have key : ∀ ms : List Manifest, (∀ m ∈ ms, m.triggers.Nodup) →
      (fire ⟨rebuildTable ms, h, budget⟩ T ctx).map Prod.fst
        = (ms.filter (fun m => m.triggers.contains T)).map Manifest.name := by
    intro ms hms
    rw [fire_map_fst]
    show subscribersOfTable (ms.foldl _ []) T = _
    rw [subscribersOf_rebuild T ms hms []]
    simp [subscribersOfTable]
  refine ⟨key, ?_⟩
  intro l1 l2 l3 a b hnd hnd'
  constructor
  · rw [key _ hnd]
    by_cases hA : T ∈ a.triggers <;> by_cases hB : T ∈ b.triggers <;>
      simp [List.filter_append, List.filter_cons, hA, hB]
  · rw [key _ hnd']
    by_cases hA : T ∈ a.triggers <;> by_cases hB : T ∈ b.triggers <;>
      simp [List.filter_append, List.filter_cons, hA, hB]

/-- A demo manifest subscribed to `post_install`. -/
def demoManifest : Manifest :=
  ⟨"demo", "1.0.0", "Demo extension", "paxd", ["post_install"], none⟩

/-- A logging manifest subscribed to `post_install` and `app_exit`. -/
def loggerManifest : Manifest :=
  ⟨"logger", "1.0.0", "Logs operations", "paxd", ["post_install", "app_exit"], none⟩

/-- A notifier manifest subscribed to `app_exit` only. -/
def notifierManifest : Manifest :=
  ⟨"notifier", "2.0.0", "Notifies", "paxd", ["app_exit"], none⟩

/-- A handler behaviour that always succeeds instantly. -/
def hW : String → String → Context → HandlerRun := fun _ _ _ => ⟨.ok, 0⟩

theorem c2_witness :
    ((fire ⟨rebuildTable [demoManifest, notifierManifest, loggerManifest], hW, 5⟩
        "post_install" []).map Prod.fst
      = ([demoManifest, notifierManifest, loggerManifest].filter
          (fun m => m.triggers.contains "post_install")).map Manifest.name) ∧
    ((fire ⟨rebuildTable ([] ++ demoManifest :: [notifierManifest] ++ loggerManifest :: []),
        hW, 5⟩ "post_install" []).map Prod.fst
      = (List.filter (fun m => m.triggers.contains "post_install") []).map Manifest.name
        ++ (if demoManifest.triggers.contains "post_install" then [demoManifest.name] else [])
        ++ ([notifierManifest].filter (fun m => m.triggers.contains "post_install")).map
            Manifest.name
        ++ (if loggerManifest.triggers.contains "post_install" then [loggerManifest.name] else [])
        ++ (List.filter (fun m => m.triggers.contains "post_install") []).map Manifest.name) ∧
    ((fire ⟨rebuildTable ([] ++ loggerManifest :: [notifierManifest] ++ demoManifest :: []),
        hW, 5⟩ "post_install" []).map Prod.fst
      = (List.filter (fun m => m.triggers.contains "post_install") []).map Manifest.name
        ++ (if loggerManifest.triggers.contains "post_install" then [loggerManifest.name] else [])
        ++ ([notifierManifest].filter (fun m => m.triggers.contains "post_install")).map
            Manifest.name
        ++ (if demoManifest.triggers.contains "post_install" then [demoManifest.name] else [])
        ++ (List.filter (fun m => m.triggers.contains "post_install") []).map Manifest.name) :=
  ⟨(c2_fire_registration_order hW 5 "post_install" []).1
      [demoManifest, notifierManifest, loggerManifest] (by decide),
   ((c2_fire_registration_order hW 5 "post_install" []).2
      [] [notifierManifest] [] demoManifest loggerManifest (by decide) (by decide)).1,
   ((c2_fire_registration_order hW 5 "post_install" []).2
      [] [notifierManifest] [] demoManifest loggerManifest (by decide) (by decide)).2⟩

/-- C9: the Execute button is disabled exactly when no action is selected or the
package input is empty after trimming; when both are non-empty the button markup is
the icon followed by the capitalized action and the trimmed package name, and a click
navigates to `paxd://<action>/<trimmed package name>`. -/
theorem c9_webcontrol (action packageValue : String) :
    ((updateWebcontrolButton action packageValue).disabled
       = (action.isEmpty || (jsTrim packageValue).isEmpty)) ∧
    (action.isEmpty = false → (jsTrim packageValue).isEmpty = false →
      (updateWebcontrolButton action packageValue).innerHTML
          = iconSpan ++ capitalizeFirst action ++ " " ++ jsTrim packageValue ∧
        webcontrolClick action packageValue
          = some ("paxd://" ++ action ++ "/" ++ jsTrim packageValue)) := by
  unfold updateWebcontrolButton webcontrolClick
  constructor
  · by_cases h1 : action.isEmpty <;> by_cases h2 : (jsTrim packageValue).isEmpty <;>
      simp [h1, h2]
  · intro h1 h2
    simp [h1, h2]

theorem c9_witness :
    ((updateWebcontrolButton "install" " demo ").disabled
       = ("install".isEmpty || (jsTrim " demo ").isEmpty)) ∧
    (updateWebcontrolButton "install" " demo ").innerHTML
       = iconSpan ++ capitalizeFirst "install" ++ " " ++ jsTrim " demo " ∧
    webcontrolClick "install" " demo "
       = some ("paxd://" ++ "install" ++ "/" ++ jsTrim " demo ") :=
  ⟨(c9_webcontrol "install" " demo ").1,
   ((c9_webcontrol "install" " demo ").2 (by decide) (by decide)).1,
   ((c9_webcontrol "install" " demo ").2 (by decide) (by decide)).2⟩

theorem hasCopyButton_append (w : Wrapper) :
    hasCopyButton (w ++ ["copy-button"]) = true := by
  simp [hasCopyButton]

theorem step_hasCopyButton (doc : Doc) (b : Nat) :
    hasCopyButton (addCopyButtonStep doc b b) = true := by
  unfold addCopyButtonStep
  split
  · assumption
  · rw [Function.update_same]
    exact hasCopyButton_append (doc b)

theorem hasCopyButton_step_mono (doc : Doc) (b i : Nat)
    (h : hasCopyButton (doc i) = true) :
    hasCopyButton (addCopyButtonStep doc b i) = true := by
  unfold addCopyButtonStep
  split
  · exact h
  · by_cases hib : i = b
    · subst hib
      rw [Function.update_same]
      exact hasCopyButton_append (doc i)
    · rw [Function.update_noteq hib]
      exact h

theorem hasCopyButton_run_mono (blocks : List Nat) (doc : Doc) (i : Nat)
    (h : hasCopyButton (doc i) = true) :
    hasCopyButton (addCopyButtons blocks doc i) = true := by
  induction blocks generalizing doc with
  | nil => exact h
  | cons b bs ih =>
    rw [addCopyButtons, List.foldl_cons]
    exact ih (addCopyButtonStep doc b) (hasCopyButton_step_mono doc b i h)

theorem hasCopyButton_run_of_mem (blocks : List Nat) (doc : Doc) (b : Nat)
    (hb : b ∈ blocks) :
    hasCopyButton (addCopyButtons blocks doc b) = true := by
  induction blocks generalizing doc with
  | nil => cases hb
  | cons x xs ih =>
    rw [addCopyButtons, List.foldl_cons]
    rcases List.mem_cons.mp hb with h | h
    · subst h
      exact hasCopyButton_run_mono xs (addCopyButtonStep doc b) b (step_hasCopyButton doc b)
    · exact ih (addCopyButtonStep doc x) h

theorem foldl_fixed {α β : Type} (f : α → β → α) (l : List β) (s : α)
    (h : ∀ b ∈ l, f s b = s) : l.foldl f s = s := by
  induction l with
  | nil => rfl
  | cons b bs ih =>
    rw [List.foldl_cons, h b (List.mem_cons_self b bs)]
    exact ih fun x hx => h x (List.mem_cons_of_mem b hx)

/-- C10: a wrapper already holding a child of class `copy-button` is left untouched by
the per-block step, so `addCopyButtons` is idempotent: a second full pass over the
same blocks produces exactly the copy buttons of the first. -/
theorem c10_addCopyButtons_idempotent :
    (∀ (doc : Doc) (b : Nat), hasCopyButton (doc b) = true →
       addCopyButtonStep doc b = doc) ∧
    (∀ (blocks : List Nat) (doc : Doc),
       addCopyButtons blocks (addCopyButtons blocks doc) = addCopyButtons blocks doc) := by
  have hstep : ∀ (doc : Doc) (b : Nat), hasCopyButton (doc b) = true →
      addCopyButtonStep doc b = doc := by
    intro doc b h
    unfold addCopyButtonStep
    rw [if_pos h]
  refine ⟨hstep, ?_⟩
  intro blocks doc
  show List.foldl addCopyButtonStep (addCopyButtons blocks doc) blocks = addCopyButtons blocks doc
  exact foldl_fixed addCopyButtonStep blocks (addCopyButtons blocks doc)
    fun b hb => hstep _ b (hasCopyButton_run_of_mem blocks doc b hb)

/-- A concrete document for the C10 witness: wrapper 0 already has a copy button. -/
def docW : Doc := fun i => if i == 0 then ["copy-button"] else []

theorem c10_witness : addCopyButtonStep docW 0 = docW ∧
    addCopyButtons [0, 1, 1] (addCopyButtons [0, 1, 1] docW) = addCopyButtons [0, 1, 1] docW :=
  ⟨c10_addCopyButtons_idempotent.1 docW 0 (by decide),
   c10_addCopyButtons_idempotent.2 [0, 1, 1] docW⟩

/-! Lifecycle helper lemmas. -/

theorem name_ne_of_lower_ne {x y : String} (h : (lowerName x == lowerName y) = false) :
    x ≠ y := by
  intro hxy
  subst hxy
  simp at h

theorem ext_eq_of_name_eq {l : List Extension} (h : (l.map Extension.name).Nodup)
    {x y : Extension} (hx : x ∈ l) (hy : y ∈ l) (hxy : x.name = y.name) : x = y :=
  List.inj_on_of_nodup_map h hx hy hxy

theorem find?_name_eq {l : List Extension} (h : (l.map Extension.name).Nodup)
    {e : Extension} (he : e ∈ l) :
    l.find? (fun x => x.name == e.name) = some e := by
  induction l with
  | nil => cases he
  | cons a l ih =>
    rw [List.map_cons, List.nodup_cons] at h
    rcases List.mem_cons.mp he with rfl | hmem
    · rw [List.find?_cons_of_pos]
      simp
    · have hne : a.name ≠ e.name := by
        intro hh
        exact h.1 (hh ▸ List.mem_map_of_mem Extension.name hmem)
      rw [List.find?_cons_of_neg]
      · exact ih h.2 hmem
      · simp [hne]

theorem not_mem_deregisterAll (tb : List (String × String)) (n t : String) :
    (t, n) ∉ deregisterAll tb n := by
  intro hmem
  rcases List.mem_filter.mp hmem with ⟨-, hpred⟩
  simp at hpred

theorem mem_deregisterAll {tb : List (String × String)} {n : String}
    {p : String × String} :
    p ∈ deregisterAll tb n ↔ p ∈ tb ∧ p.2 ≠ n := by
  unfold deregisterAll
  rw [List.mem_filter]
  simp

theorem mem_pairs_iff (trs : List String) (n t : String) :
    (t, n) ∈ trs.map (fun x => (x, n)) ↔ t ∈ trs := by
  simp

theorem map_name_set_state (l : List Extension) (n : String) (s : ExtState) :
    (l.map (fun x => if x.name == n then (⟨x.manifest, s⟩ : Extension) else x)).map
        Extension.name
      = l.map Extension.name := by
  rw [List.map_map]
  refine List.map_congr_left fun x _ => ?_
  simp only [Function.comp_def, Extension.name]
  by_cases hx : x.manifest.name = n <;> simp [hx]

theorem setEnabled_disable_eq (st : Store) (n : String) {e : Extension}
    (hnd : (st.exts.map Extension.name).Nodup) (he : e ∈ st.exts)
    (hn : e.name = n) (hst : e.state = .installed) :
    st.setEnabled n false
      = ⟨st.exts.map (fun x => if x.name == n then ⟨x.manifest, .disabled⟩ else x),
         deregisterAll st.table n⟩ := by
  unfold Store.setEnabled
  have hf : st.exts.find? (fun x => x.name == n) = some e := by
    subst hn
    exact find?_name_eq hnd he
  rw [hf]
  simp [hst]

theorem setEnabled_enable_eq (st : Store) (n : String) {e : Extension}
    (hnd : (st.exts.map Extension.name).Nodup) (he : e ∈ st.exts)
    (hn : e.name = n) (hst : e.state = .disabled) :
    st.setEnabled n true
      = ⟨st.exts.map (fun x => if x.name == n then ⟨x.manifest, .installed⟩ else x),
         registerAll st.table n e.manifest.triggers⟩ := by
  unfold Store.setEnabled
  have hf : st.exts.find? (fun x => x.name == n) = some e := by
    subst hn
    exact find?_name_eq hnd he
  rw [hf]
  simp [hst]

/-- C5: installing a manifest whose name equals an installed extension's name, with
`overwrite = false`, fails with `InstallError(NameConflict)`; the state and
`list()` output are unchanged and the original extension is still present. -/
theorem c5_install_name_conflict (st : Store) (m : Manifest) (e : Extension)
    (he : e ∈ st.exts) (hname : e.name = m.name) :
    st.install m false = .error .nameConflict ∧
    st.apply (.install m false) = st ∧
    (st.apply (.install m false)).list = st.list ∧
    e ∈ (st.apply (.install m false)).exts := by
  have hconf : st.exts.any (fun x => lowerName x.name == lowerName m.name) = true := by
    rw [List.any_eq_true]
    exact ⟨e, he, by simp [hname]⟩
  have herr : st.install m false = .error .nameConflict := by
    unfold Store.install
    rw [if_pos (by rw [hconf]; rfl)]
  have happ : st.apply (.install m false) = st := by
    show (match st.install m false with | .ok s => s | .error _ => st) = st
    rw [herr]
  exact ⟨herr, happ, by rw [happ], by rw [happ]; exact he⟩

/-- A store holding the `demo` extension, registered for `post_install`. -/
def stW : Store := ⟨[⟨demoManifest, .installed⟩], [("post_install", "demo")]⟩

/-- A second manifest that reuses the name `demo`. -/
def demo2Manifest : Manifest :=
  ⟨"demo", "2.0.0", "Another demo", "someone", ["app_exit"], none⟩

theorem c5_witness :
    stW.install demo2Manifest false = .error .nameConflict ∧
    stW.apply (.install demo2Manifest false) = stW ∧
    (stW.apply (.install demo2Manifest false)).list = stW.list ∧
    (⟨demoManifest, .installed⟩ : Extension) ∈ (stW.apply (.install demo2Manifest false)).exts :=
  c5_install_name_conflict stW demo2Manifest ⟨demoManifest, .installed⟩ (by decide) (by decide)

/-- C6: installing a fresh extension and immediately uninstalling it is a round trip:
the table after uninstall is exactly `deregisterAll` of the installed table (entries
removed before files), it holds zero entries referencing the name, the Extension set
no longer contains the name, and the store equals the prior state. -/
theorem c6_install_uninstall_round_trip (st : Store) (m : Manifest)
    (hfresh : ∀ e ∈ st.exts, (lowerName e.name == lowerName m.name) = false)
    (htb : ∀ p ∈ st.table, (lowerName p.2 == lowerName m.name) = false) :
    ∃ st' : Store, st.install m false = .ok st' ∧
      (st'.uninstall m.name true).table = deregisterAll st'.table m.name ∧
      (∀ p ∈ (st'.uninstall m.name true).table, p.2 ≠ m.name) ∧
      (∀ e ∈ (st'.uninstall m.name true).exts, e.name ≠ m.name) ∧
      st'.uninstall m.name true = st := by
  have hexts : st.exts.filter (fun e => !(lowerName e.name == lowerName m.name)) = st.exts :=
    List.filter_eq_self.mpr fun e he => by rw [hfresh e he]; rfl
  have htbl : st.table.filter (fun p => !(lowerName p.2 == lowerName m.name)) = st.table :=
    List.filter_eq_self.mpr fun p hp => by rw [htb p hp]; rfl
  have hconf : st.exts.any (fun x => lowerName x.name == lowerName m.name) = false := by
    rw [List.any_eq_false]
    intro x hx
    rw [hfresh x hx]
    exact Bool.false_ne_true
  have hok : st.install m false
      = .ok ⟨st.exts ++ [⟨m, .installed⟩],
             st.table ++ m.triggers.map (fun t => (t, m.name))⟩ := by
    unfold Store.install
    rw [if_neg (by rw [hconf]; simp), hexts]
    unfold registerAll
    rw [htbl]
  have hname_ne : ∀ e ∈ st.exts, (e.name == m.name) = false := fun e he =>
    beq_eq_false_iff_ne.mpr (name_ne_of_lower_ne (hfresh e he))
  have htb_ne : ∀ p ∈ st.table, (p.2 == m.name) = false := fun p hp =>
    beq_eq_false_iff_ne.mpr (name_ne_of_lower_ne (htb p hp))
  have e1 : (st.exts ++ [(⟨m, .installed⟩ : Extension)]).filter
      (fun e => !(e.name == m.name)) = st.exts := by
    rw [List.filter_append,
      List.filter_eq_self.mpr fun e he => by rw [hname_ne e he]; rfl]
    have h2 : [(⟨m, .installed⟩ : Extension)].filter (fun e => !(e.name == m.name)) = [] := by
      simp [Extension.name]
    rw [h2, List.append_nil]
  have e2 : deregisterAll (st.table ++ m.triggers.map (fun t => (t, m.name))) m.name
      = st.table := by
    unfold deregisterAll
    rw [List.filter_append,
      List.filter_eq_self.mpr fun p hp => by rw [htb_ne p hp]; rfl]
    have h2 : (m.triggers.map (fun t => (t, m.name))).filter
        (fun p => !(p.2 == m.name)) = [] := by
      rw [List.filter_eq_nil_iff]
      intro p hp
      rcases List.mem_map.mp hp with ⟨t, -, rfl⟩
      simp
    rw [h2, List.append_nil]
  have huni : Store.uninstall
      ⟨st.exts ++ [⟨m, .installed⟩], st.table ++ m.triggers.map (fun t => (t, m.name))⟩
      m.name true = st := by
    show (⟨(st.exts ++ [(⟨m, .installed⟩ : Extension)]).filter (fun e => !(e.name == m.name)),
          deregisterAll (st.table ++ m.triggers.map (fun t => (t, m.name))) m.name⟩ : Store)
        = st
    rw [e1, e2]
  refine ⟨_, hok, rfl, ?_, ?_, huni⟩
  · intro p hp
    rw [show (Store.uninstall ⟨st.exts ++ [⟨m, .installed⟩],
          st.table ++ m.triggers.map (fun t => (t, m.name))⟩ m.name true).table = st.table
        from congrArg Store.table huni] at hp
    exact beq_eq_false_iff_ne.mp (htb_ne p hp)
  · intro e he
    rw [show (Store.uninstall ⟨st.exts ++ [⟨m, .installed⟩],
          st.table ++ m.triggers.map (fun t => (t, m.name))⟩ m.name true).exts = st.exts
        from congrArg Store.exts huni] at he
    exact beq_eq_false_iff_ne.mp (hname_ne e he)

theorem c6_witness :
    ∃ st' : Store, Store.empty.install demoManifest false = .ok st' ∧
      (st'.uninstall demoManifest.name true).table = deregisterAll st'.table demoManifest.name ∧
      (∀ p ∈ (st'.uninstall demoManifest.name true).table, p.2 ≠ demoManifest.name) ∧
      (∀ e ∈ (st'.uninstall demoManifest.name true).exts, e.name ≠ demoManifest.name) ∧
      st'.uninstall demoManifest.name true = Store.empty :=
  c6_install_uninstall_round_trip Store.empty demoManifest (by decide) (by decide)

/-- C7: for an installed extension, disabling removes its name from every trigger
list while keeping its record — now in state Disabled, still reported by `list()` —
in the Extension set; re-enabling returns the record to Installed and restores its
registrations to exactly the triggers it was registered at before. -/
theorem c7_disable_enable_round_trip (st : Store) (e : Extension)
    (hinv : Inv st) (he : e ∈ st.exts) (hst : e.state = .installed) :
    (∀ t, e.name ∉ (st.setEnabled e.name false).subscribersOf t) ∧
    (⟨e.manifest, .disabled⟩ : Extension) ∈ (st.setEnabled e.name false).exts ∧
    (⟨e.manifest, .installed⟩ : Extension)
        ∈ ((st.setEnabled e.name false).setEnabled e.name true).exts ∧
    (∀ t, e.name ∈ ((st.setEnabled e.name false).setEnabled e.name true).subscribersOf t
        ↔ e.name ∈ st.subscribersOf t) := by
  obtain ⟨hnd, href, hcomp⟩ := hinv
  have hst1 := setEnabled_disable_eq st e.name hnd he rfl hst
  have htb1 : (st.setEnabled e.name false).table = deregisterAll st.table e.name :=
    congrArg Store.table hst1
  have hexts1 : (st.setEnabled e.name false).exts
      = st.exts.map (fun x => if x.name == e.name then ⟨x.manifest, .disabled⟩ else x) :=
    congrArg Store.exts hst1
  have hd1 : (⟨e.manifest, .disabled⟩ : Extension) ∈ (st.setEnabled e.name false).exts := by
    rw [hexts1]
    have heq : (⟨e.manifest, .disabled⟩ : Extension)
        = (fun x : Extension =>
            if x.name == e.name then (⟨x.manifest, .disabled⟩ : Extension) else x) e := by
      simp
    rw [heq]
    exact List.mem_map_of_mem _ he
  have hnd1 : ((st.setEnabled e.name false).exts.map Extension.name).Nodup := by
    rw [hexts1, map_name_set_state]
    exact hnd
  have hst2 := setEnabled_enable_eq (st.setEnabled e.name false) e.name hnd1 hd1 rfl rfl
  have htb2 : ((st.setEnabled e.name false).setEnabled e.name true).table
      = registerAll (st.setEnabled e.name false).table e.name e.manifest.triggers :=
    congrArg Store.table hst2
  have hexts2 : ((st.setEnabled e.name false).setEnabled e.name true).exts
      = (st.setEnabled e.name false).exts.map
          (fun x => if x.name == e.name then ⟨x.manifest, .installed⟩ else x) :=
    congrArg Store.exts hst2
  have hkey : ∀ t, (t, e.name) ∈ st.table ↔ t ∈ e.manifest.triggers := by
    intro t
    constructor
    · intro hp
      rcases href (t, e.name) hp with ⟨e', he', hname, -, htrig⟩
      rwa [ext_eq_of_name_eq hnd he' he hname] at htrig
    · intro ht
      exact hcomp e he hst t ht
  refine ⟨?_, hd1, ?_, ?_⟩
  · intro t hmem
    rw [Store.subscribersOf, htb1, mem_subscribersOfTable] at hmem
    exact not_mem_deregisterAll st.table e.name t hmem
  · rw [hexts2]
    have heq : (⟨e.manifest, .installed⟩ : Extension)
        = (fun x : Extension =>
            if x.name == e.name then (⟨x.manifest, .installed⟩ : Extension) else x)
          ⟨e.manifest, .disabled⟩ := by
      simp [Extension.name]
    rw [heq]
    exact List.mem_map_of_mem _ hd1
  · intro t
    rw [Store.subscribersOf, Store.subscribersOf, htb2, htb1,
      mem_subscribersOfTable, mem_subscribersOfTable]
    unfold registerAll
    rw [List.mem_append]
    constructor
    · rintro (hmem | hmem)
      · exact absurd hmem (not_mem_deregisterAll st.table e.name t)
      · exact (hkey t).mpr ((mem_pairs_iff e.manifest.triggers e.name t).mp hmem)
    · intro hmem
      right
      exact (mem_pairs_iff e.manifest.triggers e.name t).mpr ((hkey t).mp hmem)

theorem c7_witness :
    (∀ t, Extension.name (⟨demoManifest, .installed⟩ : Extension)
        ∉ (stW.setEnabled (Extension.name (⟨demoManifest, .installed⟩ : Extension)) false).subscribersOf t) ∧
    (⟨demoManifest, .disabled⟩ : Extension)
        ∈ (stW.setEnabled (Extension.name (⟨demoManifest, .installed⟩ : Extension)) false).exts ∧
    (⟨demoManifest, .installed⟩ : Extension)
        ∈ ((stW.setEnabled (Extension.name (⟨demoManifest, .installed⟩ : Extension)) false).setEnabled
            (Extension.name (⟨demoManifest, .installed⟩ : Extension)) true).exts ∧
    (∀ t, Extension.name (⟨demoManifest, .installed⟩ : Extension)
          ∈ ((stW.setEnabled (Extension.name (⟨demoManifest, .installed⟩ : Extension)) false).setEnabled
              (Extension.name (⟨demoManifest, .installed⟩ : Extension)) true).subscribersOf t
        ↔ Extension.name (⟨demoManifest, .installed⟩ : Extension) ∈ stW.subscribersOf t) :=
  c7_disable_enable_round_trip stW ⟨demoManifest, .installed⟩
    (by unfold Inv; decide) (by decide) (by decide)

/-! Preservation of the registration invariant under every lifecycle operation. -/

theorem contains_eq_true_iff {l : List String} {a : String} :
    l.contains a = true ↔ a ∈ l := by
  simp [List.contains]

theorem contains_eq_false_iff {l : List String} {a : String} :
    l.contains a = false ↔ a ∉ l := by
  simp [List.contains]

theorem map_name_set_manifest (l : List Extension) (n : String) (m : Manifest)
    (hmn : m.name = n) :
    (l.map (fun x => if x.name == n then (⟨m, x.state⟩ : Extension) else x)).map
        Extension.name
      = l.map Extension.name := by
  rw [List.map_map]
  refine List.map_congr_left fun x _ => ?_
  simp only [Function.comp_def, Extension.name]
  by_cases hx : x.manifest.name = n <;> simp [hx, hmn]

theorem inv_empty : Inv Store.empty := by
  unfold Inv Store.empty
  simp

theorem inv_install_store (st : Store) (m : Manifest) (hinv : Inv st) :
    Inv ⟨st.exts.filter (fun e => !(lowerName e.name == lowerName m.name))
           ++ [⟨m, .installed⟩],
         registerAll (st.table.filter (fun p => !(lowerName p.2 == lowerName m.name)))
           m.name m.triggers⟩ := by
  obtain ⟨hnd, href, hcomp⟩ := hinv
  refine ⟨?_, ?_, ?_⟩
  · rw [List.map_append, List.nodup_append]
    refine ⟨hnd.sublist ((List.filter_sublist _).map Extension.name), by simp, ?_⟩
    intro a ha hb
    rcases List.mem_map.mp ha with ⟨x, hx, rfl⟩
    rcases List.mem_filter.mp hx with ⟨-, hpred⟩
    have hxa : x.name = m.name := by
      simpa [Extension.name] using hb
    exact name_ne_of_lower_ne (by simpa using hpred) hxa
  · intro p hp
    rw [registerAll, List.mem_append] at hp
    rcases hp with hp | hp
    · rcases List.mem_filter.mp hp with ⟨hmem, hpred⟩
      rcases href p hmem with ⟨e, he, hname, hstate, htrig⟩
      refine ⟨e, List.mem_append_left _ (List.mem_filter.mpr ⟨he, ?_⟩), hname, hstate, htrig⟩
      rw [show Extension.name e = p.2 from hname]
      exact hpred
    · rcases List.mem_map.mp hp with ⟨t, ht, rfl⟩
      exact ⟨⟨m, .installed⟩, List.mem_append_right _ (by simp), rfl, rfl, ht⟩
  · intro x hx hstate t ht
    rw [List.mem_append] at hx
    rw [registerAll]
    rcases hx with hx | hx
    · rcases List.mem_filter.mp hx with ⟨hmem, hpred⟩
      exact List.mem_append_left _
        (List.mem_filter.mpr ⟨hcomp x hmem hstate t ht, hpred⟩)
    · have hx' : x = ⟨m, .installed⟩ := by simpa using hx
      subst hx'
      exact List.mem_append_right _ (List.mem_map_of_mem _ ht)

theorem inv_uninstall (st : Store) (n : String) (deleteOk : Bool) (hinv : Inv st) :
    Inv (st.uninstall n deleteOk) := by
  obtain ⟨hnd, href, hcomp⟩ := hinv
  cases deleteOk with
  | true =>
    show Inv ⟨st.exts.filter (fun e => !(e.name == n)), deregisterAll st.table n⟩
    refine ⟨?_, ?_, ?_⟩
    · exact hnd.sublist ((List.filter_sublist _).map Extension.name)
    · intro p hp
      rcases mem_deregisterAll.mp hp with ⟨hmem, hne⟩
      rcases href p hmem with ⟨e, he, hname, hstate, htrig⟩
      refine ⟨e, List.mem_filter.mpr ⟨he, ?_⟩, hname, hstate, htrig⟩
      simp [hname, hne]
    · intro x hx hstate t ht
      rcases List.mem_filter.mp hx with ⟨hmem, hpred⟩
      refine mem_deregisterAll.mpr ⟨hcomp x hmem hstate t ht, ?_⟩
      simpa using hpred
  | false =>
    show Inv ⟨st.exts.map (fun e => if e.name == n then ⟨e.manifest, .failed⟩ else e),
              deregisterAll st.table n⟩
    refine ⟨?_, ?_, ?_⟩
    · rw [map_name_set_state]
      exact hnd
    · intro p hp
      rcases mem_deregisterAll.mp hp with ⟨hmem, hne⟩
      rcases href p hmem with ⟨e, he, hname, hstate, htrig⟩
      have hfe : (if e.name == n then (⟨e.manifest, ExtState.failed⟩ : Extension) else e)
          = e := by
        have hne' : e.name ≠ n := by rw [hname]; exact hne
        simp [hne']
      refine ⟨e, ?_, hname, hstate, htrig⟩
      rw [← hfe]
      exact List.mem_map_of_mem _ he
    · intro x hx hstate t ht
      rcases List.mem_map.mp hx with ⟨y, hy, rfl⟩
      by_cases hyn : y.name = n
      · rw [if_pos (by simp [hyn])] at hstate
        cases hstate
      · rw [if_neg (by simp [hyn])] at hstate ht ⊢
        exact mem_deregisterAll.mpr ⟨hcomp y hy hstate t ht, hyn⟩

theorem inv_setEnabled (st : Store) (n : String) (b : Bool) (hinv : Inv st) :
    Inv (st.setEnabled n b) := by
  obtain ⟨hnd, href, hcomp⟩ := hinv
  unfold Store.setEnabled
  split
  · exact ⟨hnd, href, hcomp⟩
  · rename_i e hf
    have he : e ∈ st.exts := List.mem_of_find?_eq_some hf
    have hen : e.name = n := by simpa using List.find?_some hf
    split
    · split
      · rename_i hdisb
        have hdis : e.state = .disabled := by simpa using hdisb
        refine ⟨?_, ?_, ?_⟩
        · rw [map_name_set_state]
          exact hnd
        · intro p hp
          rw [registerAll, List.mem_append] at hp
          rcases hp with hp | hp
          · rcases href p hp with ⟨e', he', hname, hstate, htrig⟩
            have hne : e'.name ≠ n := by
              intro hh
              have : e' = e := ext_eq_of_name_eq hnd he' he (hh.trans hen.symm)
              rw [this, hdis] at hstate
              cases hstate
            have hfe : (if e'.name == n then (⟨e'.manifest, ExtState.installed⟩ : Extension)
                else e') = e' := by simp [hne]
            refine ⟨e', ?_, hname, hstate, htrig⟩
            rw [← hfe]
            exact List.mem_map_of_mem _ he'
          · rcases List.mem_map.mp hp with ⟨t, ht, rfl⟩
            have hfe : (if e.name == n then (⟨e.manifest, ExtState.installed⟩ : Extension)
                else e) = ⟨e.manifest, .installed⟩ := by simp [hen]
            refine ⟨⟨e.manifest, .installed⟩, ?_, ?_, rfl, ht⟩
            · rw [← hfe]
              exact List.mem_map_of_mem _ he
            · show e.manifest.name = n
              exact hen
        · intro x hx hstate t ht
          rcases List.mem_map.mp hx with ⟨y, hy, rfl⟩
          rw [registerAll, List.mem_append]
          by_cases hyn : y.name = n
          · have hye : y = e := ext_eq_of_name_eq hnd hy he (hyn.trans hen.symm)
            subst hye
            rw [if_pos (by simp [hyn])] at ht ⊢
            right
            have : Extension.name (⟨y.manifest, ExtState.installed⟩ : Extension) = n := hyn
            rw [this]
            exact List.mem_map_of_mem _ ht
          · rw [if_neg (by simp [hyn])] at hstate ht ⊢
            left
            exact hcomp y hy hstate t ht
      · exact ⟨hnd, href, hcomp⟩
    · split
      · rename_i hinsb
        have hins : e.state = .installed := by simpa using hinsb
        refine ⟨?_, ?_, ?_⟩
        · rw [map_name_set_state]
          exact hnd
        · intro p hp
          rcases mem_deregisterAll.mp hp with ⟨hmem, hne⟩
          rcases href p hmem with ⟨e', he', hname, hstate, htrig⟩
          have hne' : e'.name ≠ n := by rw [hname]; exact hne
          have hfe : (if e'.name == n then (⟨e'.manifest, ExtState.disabled⟩ : Extension)
              else e') = e' := by simp [hne']
          refine ⟨e', ?_, hname, hstate, htrig⟩
          rw [← hfe]
          exact List.mem_map_of_mem _ he'
        · intro x hx hstate t ht
          rcases List.mem_map.mp hx with ⟨y, hy, rfl⟩
          by_cases hyn : y.name = n
          · rw [if_pos (by simp [hyn])] at hstate
            cases hstate
          · rw [if_neg (by simp [hyn])] at hstate ht ⊢
            exact mem_deregisterAll.mpr ⟨hcomp y hy hstate t ht, hyn⟩
      · exact ⟨hnd, href, hcomp⟩

theorem inv_update_store (st : Store) (n : String) (m : Manifest) (e : Extension)
    (hinv : Inv st) (he : e ∈ st.exts) (hen : e.name = n)
    (hstate : e.state = .installed) (hmn : m.name = n) :
    Inv ⟨st.exts.map (fun x => if x.name == n then ⟨m, x.state⟩ else x),
         registerAll
           (st.table.filter (fun p =>
             !(p.2 == n && (e.manifest.triggers.filter
                 (fun t => !(m.triggers.contains t))).contains p.1)))
           n (m.triggers.filter (fun t => !(e.manifest.triggers.contains t)))⟩ := by
  obtain ⟨hnd, href, hcomp⟩ := hinv
  refine ⟨?_, ?_, ?_⟩
  · rw [map_name_set_manifest st.exts n m hmn]
    exact hnd
  · intro p hp
    rw [registerAll, List.mem_append] at hp
    rcases hp with hp | hp
    · rcases List.mem_filter.mp hp with ⟨hmem, hpred⟩
      rcases href p hmem with ⟨e', he', hname, hstate', htrig⟩
      by_cases hn' : e'.name = n
      · have hee : e' = e := ext_eq_of_name_eq hnd he' he (by rw [hn', hen])
        subst hee
        have hp2 : p.2 = n := by rw [← hname, hn']
        rw [Bool.not_eq_true'] at hpred
        rw [show (p.2 == n) = true from by simp [hp2], Bool.true_and] at hpred
        have hpm : p.1 ∈ m.triggers := by
          by_contra hcon
          have hmemr : p.1 ∈ e'.manifest.triggers.filter
              (fun t => !(m.triggers.contains t)) :=
            List.mem_filter.mpr ⟨htrig, by simpa using hcon⟩
          rw [contains_eq_false_iff] at hpred
          exact hpred hmemr
        have hfe : (if e'.name == n then (⟨m, e'.state⟩ : Extension) else e')
            = ⟨m, e'.state⟩ := by simp [hn']
        refine ⟨⟨m, e'.state⟩, ?_, ?_, ?_, hpm⟩
        · rw [← hfe]
          exact List.mem_map_of_mem _ he'
        · show m.name = p.2
          rw [hmn, hp2]
        · show e'.state = ExtState.installed
          exact hstate'
      · have hfe : (if e'.name == n then (⟨m, e'.state⟩ : Extension) else e') = e' := by
          simp [hn']
        refine ⟨e', ?_, hname, hstate', htrig⟩
        rw [← hfe]
        exact List.mem_map_of_mem _ he'
    · rcases List.mem_map.mp hp with ⟨t, ht, rfl⟩
      rcases List.mem_filter.mp ht with ⟨htm, -⟩
      have hfe : (if e.name == n then (⟨m, e.state⟩ : Extension) else e) = ⟨m, e.state⟩ := by
        simp [hen]
      refine ⟨⟨m, e.state⟩, ?_, ?_, hstate, htm⟩
      · rw [← hfe]
        exact List.mem_map_of_mem _ he
      · show m.name = n
        exact hmn
  · intro x hx hstate' t ht
    rcases List.mem_map.mp hx with ⟨y, hy, rfl⟩
    by_cases hyn : y.name = n
    · have hye : y = e := ext_eq_of_name_eq hnd hy he (by rw [hyn, hen])
      subst hye
      have hfe : (if y.name == n then (⟨m, y.state⟩ : Extension) else y) = ⟨m, y.state⟩ := by
        simp [hyn]
      rw [hfe] at hstate' ht ⊢
      have hys : y.state = ExtState.installed := hstate'
      have htm : t ∈ m.triggers := ht
      have hgoal : (t, m.name) ∈ registerAll
          (st.table.filter (fun p =>
            !(p.2 == n && (y.manifest.triggers.filter
                (fun s => !(m.triggers.contains s))).contains p.1)))
          n (m.triggers.filter (fun s => !(y.manifest.triggers.contains s))) := by
        rw [registerAll, List.mem_append]
        by_cases hte : t ∈ y.manifest.triggers
        · left
          have hpair : ((t, m.name) : String × String) = (t, y.name) := by
            rw [hmn, hyn]
          rw [hpair]
          refine List.mem_filter.mpr ⟨hcomp y hy hys t hte, ?_⟩
          have hno : ((y.manifest.triggers.filter
              (fun s => !(m.triggers.contains s))).contains t) = false := by
            rw [contains_eq_false_iff]
            intro hmemr
            rcases List.mem_filter.mp hmemr with ⟨-, hfl⟩
            rw [Bool.not_eq_true', contains_eq_false_iff] at hfl
            exact hfl htm
          show (!((y.name == n) && ((y.manifest.triggers.filter
              (fun s => !(m.triggers.contains s))).contains t))) = true
          rw [hno, Bool.and_false]
          rfl
        · right
          have hpair : ((t, m.name) : String × String) = (t, n) := by rw [hmn]
          rw [hpair]
          refine List.mem_map_of_mem _ (List.mem_filter.mpr ⟨htm, ?_⟩)
          simpa using hte
      exact hgoal
    · have hfe : (if y.name == n then (⟨m, y.state⟩ : Extension) else y) = y := by
        simp [hyn]
      rw [hfe] at hstate' ht ⊢
      rw [registerAll, List.mem_append]
      left
      refine List.mem_filter.mpr ⟨hcomp y hy hstate' t ht, ?_⟩
      simp [hyn]

theorem update_ok_shape {st : Store} {n : String} {m : Manifest} {s : Store}
    (h : st.update n m = .ok s) :
    ∃ e, st.exts.find? (fun x => x.name == n) = some e ∧ m.name = n
      ∧ e.state = .installed
      ∧ s = ⟨st.exts.map (fun x => if x.name == n then ⟨m, x.state⟩ else x),
             registerAll
               (st.table.filter (fun p =>
                 !(p.2 == n && (e.manifest.triggers.filter
                     (fun t => !(m.triggers.contains t))).contains p.1)))
               n (m.triggers.filter (fun t => !(e.manifest.triggers.contains t)))⟩ := by
  unfold Store.update at h
  split at h
  · cases h
  · rename_i e hf
    split at h
    · cases h
    · rename_i hguard
      simp only [Bool.or_eq_true, Bool.not_eq_true', beq_eq_false_iff_ne] at hguard
      push_neg at hguard
      obtain ⟨hmn, hstate⟩ := hguard
      injection h with h2
      exact ⟨e, hf, hmn, hstate, h2.symm⟩

theorem inv_apply (st : Store) (op : LifecycleOp) (hinv : Inv st) : Inv (st.apply op) := by
  cases op with
  | install m ow =>
    show Inv (match st.install m ow with | .ok s => s | .error _ => st)
    unfold Store.install
    by_cases hc : (st.exts.any (fun e => lowerName e.name == lowerName m.name) && !ow) = true
    · rw [if_pos hc]
      exact hinv
    · rw [if_neg hc]
      exact inv_install_store st m hinv
  | update n m =>
    show Inv (match st.update n m with | .ok s => s | .error _ => st)
    cases hu : st.update n m with
    | error err => exact hinv
    | ok s =>
      obtain ⟨e, hf, hmn, hstate, rfl⟩ := update_ok_shape hu
      exact inv_update_store st n m e hinv (List.mem_of_find?_eq_some hf)
        (by simpa using List.find?_some hf) hstate hmn
  | uninstall n deleteOk => exact inv_uninstall st n deleteOk hinv
  | setEnabled n b => exact inv_setEnabled st n b hinv

theorem inv_run (st : Store) (ops : List LifecycleOp) (hinv : Inv st) :
    Inv (st.run ops) := by
  induction ops generalizing st with
  | nil => exact hinv
  | cons op ops ih => exact ih (st.apply op) (inv_apply st op hinv)

/-- C8: in every state reachable from the empty store by lifecycle operations, every
Registration Table entry references a currently Installed extension subscribed to
that trigger, and every Disabled or Failed extension — while still recorded in the
Extension set — appears in no trigger's subscriber list. -/
theorem c8_reachable_invariant (ops : List LifecycleOp) :
    (∀ p ∈ (Store.run Store.empty ops).table,
       ∃ e ∈ (Store.run Store.empty ops).exts,
         e.name = p.2 ∧ e.state = .installed ∧ p.1 ∈ e.manifest.triggers) ∧
    (∀ e ∈ (Store.run Store.empty ops).exts,
       e.state = .disabled ∨ e.state = .failed →
       ∀ t, e.name ∉ (Store.run Store.empty ops).subscribersOf t) := by
  obtain ⟨hnd, href, hcomp⟩ := inv_run Store.empty ops inv_empty
  refine ⟨href, ?_⟩
  intro e he hds t hmem
  rw [Store.subscribersOf, mem_subscribersOfTable] at hmem
  rcases href (t, e.name) hmem with ⟨e', he', hname, hstate, -⟩
  rw [ext_eq_of_name_eq hnd he' he hname] at hstate
  rcases hds with h | h <;> rw [h] at hstate <;> cases hstate

/-- The operation sequence for the C8 witness: two installs, then `demo` disabled. -/
def opsW : List LifecycleOp :=
  [.install loggerManifest false, .install demoManifest false, .setEnabled "demo" false]

theorem c8_witness :
    (∃ e ∈ (Store.run Store.empty opsW).exts,
       e.name = "logger" ∧ e.state = .installed ∧ "post_install" ∈ e.manifest.triggers) ∧
    Extension.name (⟨demoManifest, .disabled⟩ : Extension)
        ∉ (Store.run Store.empty opsW).subscribersOf "post_install" :=
  ⟨(c8_reachable_invariant opsW).1 ("post_install", "logger") (by decide),
   (c8_reachable_invariant opsW).2 ⟨demoManifest, .disabled⟩ (by decide) (Or.inl rfl)
     "post_install"⟩

end PaxD
